import Mathlib

/-!
Verification development for the git-rewrite repository.

The repository is a Tauri desktop application: a Svelte frontend
(`src/routes/+page.svelte`, `src/lib/*.svelte`, `src/lib/graphUtils`,
`src/lib/DiffViewer.svelte`) that invokes a history-rewrite engine through
commands such as `edit_commit_message`, `squash_commits` and
`get_commit_diff`.  The engine itself (the Rust backend) is not part of the
checked-in sources; it is documented by `LIFECYCLE.md` and by the
specification, from which the engine-side definitions below are modelled.
Frontend algorithms (graph layout, diff search, squash request assembly) are
translated directly from the TypeScript sources.
-/

namespace GitRewrite

/-! ## History rewrite engine (modelled from the spec)

The engine manipulates immutable, content-addressed commit objects.  A
commit's identity (its hash) is a pure function of all of its fields, so we
represent a commit hash by the commit object itself, Merkle style: two
commits are the same hash exactly when they agree on tree, parent chain,
author and message.  Multi-parent (merge) commits are rejected by the
engine's linearizer before any rewrite, so the model carries at most one
parent per commit.  The author field stands for the full author identity
(name, email, timestamp) that the recreator carries over verbatim.
-/

/-- Modelled from the spec: the error taxonomy of §7. -/
inductive EngineError where
  | InvalidRepository
  | NoCommits
  | DirtyWorkingDirectory
  | StashRestoreConflict
  | UnsupportedMergeCommit
  | InitialCommitUnmodifiable
  | EmptySquashSet
  | TargetNotInChain
  | ObjectWriteFailure
  | RefUpdateFailure
deriving DecidableEq, Repr

/-- Modelled from the spec: an immutable commit object in the
content-addressable store.  `root` is a commit with zero parents; `child`
has exactly one parent.  Structural equality of `Obj` values is hash
equality of the commits they stand for. -/
inductive Obj where
  | root (tree : Nat) (author message : String)
  | child (tree : Nat) (parent : Obj) (author message : String)
deriving DecidableEq, Repr

/-- The tree hash recorded in a commit. -/
def Obj.tree : Obj → Nat
  | .root t _ _ => t
  | .child t _ _ _ => t

/-- The author identity recorded in a commit. -/
def Obj.author : Obj → String
  | .root _ a _ => a
  | .child _ _ a _ => a

/-- The commit message. -/
def Obj.message : Obj → String
  | .root _ _ m => m
  | .child _ _ _ m => m

/-- The single parent of a commit, if any. -/
def Obj.parent? : Obj → Option Obj
  | .root _ _ _ => none
  | .child _ p _ _ => some p

/-- The first-parent ancestry of a commit, newest first, the commit itself
included. -/
def ancestors : Obj → List Obj
  | .root t a m => [.root t a m]
  | .child t p a m => .child t p a m :: ancestors p

/-- The data of one commit to be stacked on top of a chain:
(tree, author, message). -/
abbrev CommitData := Nat × String × String

/-- Stack a list of commits (oldest first) on top of a base object,
re-parenting each onto the previously created commit; returns the new
tip.  This is the declarative form of the sequential re-chaining of
`LIFECYCLE.md`. -/
def stack (o : Obj) : List CommitData → Obj
  | [] => o
  | (t, a, m) :: l => stack (.child t o a m) l

/-- The commits created by `stack`, oldest first, the base excluded. -/
def above (o : Obj) : List CommitData → List Obj
  | [] => []
  | (t, a, m) :: l => Obj.child t o a m :: above (Obj.child t o a m) l

/-- Modelled from the spec: one step of a rewrite plan — the tree, author
and message the recreator will commit. -/
structure PlanStep where
  tree : Nat
  author : String
  message : String
deriving DecidableEq, Repr

/-- The plan step that re-commits a piece of commit data verbatim. -/
def dataStep : CommitData → PlanStep
  | (t, a, m) => ⟨t, a, m⟩

/-- Take elements of a list up to and including the first one satisfying
`p`; `none` if no element satisfies `p`. -/
def takeThrough (p : Obj → Bool) : List Obj → Option (List Obj)
  | [] => none
  | x :: xs => if p x then some [x] else (takeThrough p xs).map (x :: ·)

/-- Modelled from the spec: the History Linearizer (§4.2).  Walks
first-parent links from the branch tip down to `target`; on success returns
the rewrite lower bound (the target's parent) and the chain from the target
through the tip, oldest first.  Fails with `TargetNotInChain` when the
target is not an ancestor of the tip and with `InitialCommitUnmodifiable`
when the target has no parent. -/
def linearize (tip target : Obj) : Except EngineError (Obj × List Obj) :=
  match takeThrough (fun c => c == target) (ancestors tip) with
  | none => .error .TargetNotInChain
  | some desc =>
    match target.parent? with
    | none => .error .InitialCommitUnmodifiable
    | some lb => .ok (lb, desc.reverse)

/-- Modelled from the spec: the Rewrite Planner for an edit-message
operation (§4.3).  Every chain commit is re-emitted with its original tree;
only the step matching the target receives the new message. -/
def planEdit (target : Obj) (newMsg : String) (chain : List Obj) : List PlanStep :=
  chain.map fun c =>
    if c = target then ⟨c.tree, c.author, newMsg⟩ else ⟨c.tree, c.author, c.message⟩

/-- Modelled from the spec: the per-commit decision of the squash planner.
Squash-set members older than the newest are elided; the newest member
keeps its own tree and receives the new message; commits outside the set
are re-emitted verbatim. -/
def squashFilter (targets : List Obj) (newest : Obj) (newMsg : String) (c : Obj) :
    Option PlanStep :=
  if c = newest then some ⟨c.tree, c.author, newMsg⟩
  else if targets.contains c then none
  else some ⟨c.tree, c.author, c.message⟩

/-- Modelled from the spec: the Rewrite Planner for a squash operation
(§4.3). -/
def planSquash (targets : List Obj) (newest : Obj) (newMsg : String)
    (chain : List Obj) : List PlanStep :=
  chain.filterMap (squashFilter targets newest newMsg)

/-- Modelled from the spec: the Commit Recreator (§4.4).  Executes the plan
oldest first; each step writes a new commit whose single parent is the
previous step's output (the lower bound for the first step).  Returns the
new tip together with the store extended by every written object. -/
def recreate (lb : Obj) (steps : List PlanStep) (store : List Obj) : Obj × List Obj :=
  steps.foldl
    (fun acc s =>
      (Obj.child s.tree acc.1 s.author s.message,
       acc.2 ++ [Obj.child s.tree acc.1 s.author s.message]))
    (lb, store)

/-- Modelled from the spec: a repository — the object store plus the
current branch reference (the tip it points at). -/
structure Repo where
  store : List Obj
  head : Obj
deriving DecidableEq, Repr

/-- Modelled from the spec: the edit-message operation (§6,
`editMessage`).  Linearize, plan, recreate, then advance the branch
reference to the recreated tip.  On failure the repository is returned
unchanged. -/
def editMessage (r : Repo) (target : Obj) (newMsg : String) :
    Except EngineError Unit × Repo :=
  match linearize r.head target with
  | .error e => (.error e, r)
  | .ok (lb, chain) =>
    let res := recreate lb (planEdit target newMsg chain) r.store
    (.ok (), ⟨res.2, res.1⟩)

/-- Modelled from the spec: the squash operation (§6, `squash`).
`targetsOrdered` is the squash set sorted oldest → newest.  Fails with
`EmptySquashSet` on fewer than two targets, then linearizes from the oldest
target, checks every target lies in the chain, plans and recreates. -/
def squashCommits (r : Repo) (targetsOrdered : List Obj) (newMsg : String) :
    Except EngineError Unit × Repo :=
  match targetsOrdered with
  | [] => (.error .EmptySquashSet, r)
  | [_] => (.error .EmptySquashSet, r)
  | oldest :: t1 :: ts =>
    match linearize r.head oldest with
    | .error e => (.error e, r)
    | .ok (lb, chain) =>
      if (oldest :: t1 :: ts).all (fun c => chain.contains c) then
        let newest := (t1 :: ts).getLastD t1
        let res :=
          recreate lb (planSquash (oldest :: t1 :: ts) newest newMsg chain) r.store
        (.ok (), ⟨res.2, res.1⟩)
      else (.error .TargetNotInChain, r)

/-! ## Working Directory Guard (modelled from the spec, §4.1)

The guard wraps a rewrite operation.  The working tree's uncommitted
changes are a list of paths (`dirty`); the stash is a stack of saved
change sets; `repo` is the payload the wrapped operation acts on.  A stash
pop is modelled as failing exactly when the working tree holds uncommitted
changes at pop time — the "conflicting changes reintroduced by the
rewrite" case of the spec. -/

/-- The guard's view of the world: working-tree changes, the stash stack,
and the repository payload of the wrapped operation. -/
structure GState (α : Type) where
  dirty : List String
  stash : List (List String)
  repo : α
deriving DecidableEq, Repr

/-- Modelled from the spec: save a stash entry — the uncommitted changes
move onto the stash stack and the working tree becomes clean. -/
def stashSave {α : Type} (s : GState α) : GState α :=
  ⟨[], s.dirty :: s.stash, s.repo⟩

/-- Modelled from the spec: pop the newest stash entry back into the
working tree.  `none` when there is nothing to pop or when uncommitted
changes present at pop time would conflict; in either case the state is
left untouched by the caller. -/
def stashPop {α : Type} (s : GState α) : Option (GState α) :=
  match s.stash with
  | [] => none
  | e :: rest => if s.dirty = [] then some ⟨e, rest, s.repo⟩ else none

/-- Modelled from the spec: the Working Directory Guard's
`run(operation, autoStash)` (§4.1).  Clean tree: run the operation
directly.  Dirty tree without auto-stash: fail with
`DirtyWorkingDirectory` without invoking the operation.  Dirty tree with
auto-stash: stash, run the operation, then pop — on both the success and
the failure path of the operation; a failed pop surfaces as
`StashRestoreConflict` with the stash entry preserved. -/
def runGuarded {α β : Type} (op : GState α → Except EngineError β × GState α)
    (autoStash : Bool) (s : GState α) : Except EngineError β × GState α :=
  if s.dirty = [] then op s
  else if autoStash = false then (.error .DirtyWorkingDirectory, s)
  else
    let res := op (stashSave s)
    match stashPop res.2 with
    | some s3 => (res.1, s3)
    | none => (.error .StashRestoreConflict, res.2)

/-- A concrete wrapped operation for guard scenarios: succeeds, leaves
the tree clean and the stash unchanged, bumps the repository payload. -/
def exOp : GState Nat → Except EngineError Nat × GState Nat :=
  fun u => (.ok 5, ⟨[], u.stash, u.repo + 1⟩)

/-- A concrete dirty guard state with one stash entry already present. -/
def exGState : GState Nat := ⟨["w.txt"], [["old"]], 0⟩

/-! ## Squash request assembly (from `src/routes/+page.svelte` and
`src/lib/CommitList.svelte`)

The UI keeps the selection as a JavaScript `Set<string>` of commit hashes;
`handleSelect` adds or deletes hashes, so the set's iteration order is the
order in which the user selected the commits.  `performSquash` then passes
`Array.from(selectedCommits)` as `commitHashes` to the `squash_commits`
command.  A JS `Set` is modelled by a duplicate-free list in insertion
order. -/

/-- `Set.add`: append the hash unless already selected
(`handleSelect` with `selected = true`). -/
def selAdd (sel : List String) (h : String) : List String :=
  if sel.contains h then sel else sel ++ [h]

/-- `Set.delete`: drop the hash from the selection
(`handleSelect` with `selected = false`). -/
def selRemove (sel : List String) (h : String) : List String :=
  sel.erase h

/-- `performSquash`: the `commitHashes` argument handed to the
`squash_commits` command is `Array.from(selectedCommits)` — the selection
in insertion order. -/
def squashRequestHashes (sel : List String) : List String :=
  sel

/-- A hash list is ordered oldest → newest under a date assignment when
the dates are pairwise non-decreasing along it. -/
abbrev sortedOldestFirst (dateOf : String → Nat) (l : List String) : Prop :=
  l.Pairwise fun a b => dateOf a ≤ dateOf b

/-- Modelled from the spec: step 1 of the squash lifecycle
("Trier les commits à squasher par date") — the engine sorts the supplied
squash targets by commit date, oldest first, before planning.  Stated as
an insertion sort by date. -/
def sortTargetsByDate (dateOf : String → Nat) (targets : List String) : List String :=
  targets.insertionSort fun a b => dateOf a ≤ dateOf b

/-- Commit dates of the two-commit counterexample repository: "old" was
committed at time 1, "new" at time 2. -/
def exDate : String → Nat :=
  fun h => if h = "old" then 1 else if h = "new" then 2 else 0

/-! ## Git graph layout (from `src/lib/graphUtils`, optimized and naive)

Two versions of `calculateGraphLayout` exist in the sources: an optimized
one using `Map`-based lookups, an explicit `emptyRails` free list (used as
a stack: `allocateRail` pops the most recently freed index) and a running
`activeRailCount`, and a naive one using linear array scans
(`findIndex` returns the lowest matching index) and recomputing the active
count by filtering.  JavaScript `Map`s are modelled as association lists
with `Map.set` replace-or-append semantics; arrays indexed by rail are
lists of `Option` cells.

One behavioural subtlety of the optimized source is translated explicitly:
`railsExpectingMe` aliases the live array stored in `hashToRails`, so by
the time the parent-handling code tests `railsExpectingMe.length === 0`
the clearing loop has already spliced that array (usually to empty, with
the map key deleted).  The tests are therefore modelled as re-reading the
current `hashToRails` entry for `commit.hash`.  Cell reads that would
throw in JavaScript (a `null` rail dereferenced via `!`) are given the
default colour 0. -/

/-- `CommitInfo` from `src/lib/types`. -/
structure CommitInfo where
  hash : String
  short_hash : String
  message : String
  author : String
  email : String
  date : Nat
  parent_ids : List String
deriving DecidableEq, Repr

/-- A commit-info literal with only the graph-relevant fields filled in. -/
def mkCI (h : String) (ps : List String) : CommitInfo :=
  ⟨h, h, "", "", "", 0, ps⟩

/-- Connection type of a graph edge segment. -/
inductive ConnType where
  | straight
  | merge
  | branch
deriving DecidableEq, Repr

/-- `GraphConnection` from `src/lib/graphUtils`. -/
structure GraphConnection where
  fromRail : Nat
  toRail : Nat
  type : ConnType
  colorIndex : Nat
deriving DecidableEq, Repr

/-- `GraphNode` from `src/lib/graphUtils`; a pass-through entry is the
pair (rail, colorIndex). -/
structure GraphNode where
  rail : Nat
  colorIndex : Nat
  connections : List GraphConnection
  passThroughRails : List (Nat × Nat)
deriving DecidableEq, Repr

/-- `GraphLayout` from `src/lib/graphUtils`; the `nodes` map is an
association list keyed by commit hash. -/
structure GraphLayout where
  nodes : List (String × GraphNode)
  maxRails : Int
deriving DecidableEq, Repr

/-- JavaScript `Map.set`: replace the value in place if the key exists,
append otherwise. -/
def aset {α : Type} (m : List (String × α)) (k : String) (v : α) :
    List (String × α) :=
  if m.any (fun p => p.1 == k) then
    m.map fun p => if p.1 == k then (k, v) else p
  else m ++ [(k, v)]

/-- JavaScript `Map.delete`. -/
def adel {α : Type} (m : List (String × α)) (k : String) : List (String × α) :=
  m.filter fun p => p.1 != k

/-- `GRAPH.COLOR_COUNT` from `src/lib/constants`. -/
def COLOR_COUNT : Nat := 8

/-- Mutable context of the optimized layout pass, apart from the nodes
map and `maxRails`: the rail array, the hash-to-rails index, the free
list, the active-rail counter and the colour counter. -/
structure RailState where
  activeRails : List (Option (String × Nat))
  hashToRails : List (String × List Nat)
  emptyRails : List Nat
  activeRailCount : Int
  colorCounter : Nat
deriving DecidableEq, Repr

/-- Helper `setRailExpecting` of the optimized version: register a rail as
expecting a commit hash. -/
def setRailExpecting (r : RailState) (railIdx : Nat) (hash : String)
    (color : Nat) : RailState :=
  let r := { r with activeRails := r.activeRails.set railIdx (some (hash, color)) }
  match r.hashToRails.lookup hash with
  | some existing => { r with hashToRails := aset r.hashToRails hash (existing ++ [railIdx]) }
  | none => { r with hashToRails := aset r.hashToRails hash [railIdx] }

/-- Helper `clearRail` of the optimized version: deregister the rail's
expected hash, mark the cell empty, push the index on the free list and
decrement the active counter; a no-op on an already-empty cell. -/
def clearRail (r : RailState) (railIdx : Nat) : RailState :=
  match r.activeRails.getD railIdx none with
  | none => r
  | some rl =>
    let r :=
      match r.hashToRails.lookup rl.1 with
      | none => r
      | some rails =>
        let rails2 := rails.erase railIdx
        if rails2.isEmpty then { r with hashToRails := adel r.hashToRails rl.1 }
        else { r with hashToRails := aset r.hashToRails rl.1 rails2 }
    { r with activeRails := r.activeRails.set railIdx none,
             emptyRails := r.emptyRails ++ [railIdx],
             activeRailCount := r.activeRailCount - 1 }

/-- Helper `allocateRail` of the optimized version: increment the counter
and pop the most recently freed rail, or grow the array. -/
def allocateRail (r : RailState) : RailState × Nat :=
  let r := { r with activeRailCount := r.activeRailCount + 1 }
  match r.emptyRails.getLast? with
  | some i => ({ r with emptyRails := r.emptyRails.dropLast }, i)
  | none => ({ r with activeRails := r.activeRails ++ [none] }, r.activeRails.length)

/-- The rails involved in a commit row: its own rail plus every endpoint
of its connections (the `involvedRails` set of both versions). -/
def involvedRails (myRail : Nat) (conns : List GraphConnection) : List Nat :=
  myRail :: conns.foldr (fun c acc => c.fromRail :: c.toRail :: acc) []

/-- The pass-through entries of a commit row: every occupied rail cell not
involved in the row's connections (identical loop in both versions). -/
def passThrough (activeRails : List (Option (String × Nat)))
    (inv : List Nat) : List (Nat × Nat) :=
  (List.range activeRails.length).filterMap fun i =>
    match activeRails.getD i none with
    | some rl => if inv.contains i then none else some (i, rl.2)
    | none => none

/-- Full state of the optimized layout pass. -/
structure OptState where
  nodes : List (String × GraphNode)
  maxRails : Int
  rails : RailState
deriving DecidableEq, Repr

/-- Parent handling of the optimized version.  The
`railsExpectingMe.length === 0` tests re-read the current `hashToRails`
entry for the commit (alias semantics, see the section comment). -/
def optParentPhase (commitSet : List String) (commit : CommitInfo)
    (myRail myColor : Nat) (r : RailState) (conns : List GraphConnection) :
    RailState × List GraphConnection :=
  match commit.parent_ids with
  | [] =>
    if ((r.hashToRails.lookup commit.hash).getD []).isEmpty then
      ({ r with activeRailCount := r.activeRailCount - 1,
                emptyRails := r.emptyRails ++ [myRail] }, conns)
    else (r, conns)
  | [parentHash] =>
    let r :=
      if ((r.hashToRails.lookup commit.hash).getD []).isEmpty then r
      else { r with activeRailCount := r.activeRailCount + 1,
                    emptyRails := r.emptyRails.erase myRail }
    let r := setRailExpecting r myRail parentHash myColor
    let conns :=
      if commitSet.contains parentHash then
        conns ++ [⟨myRail, myRail, .straight, myColor⟩]
      else conns
    (r, conns)
  | ps =>
    ps.enum.foldl
      (fun acc ip =>
        if ip.1 = 0 then
          let r :=
            if ((acc.1.hashToRails.lookup commit.hash).getD []).isEmpty then acc.1
            else { acc.1 with activeRailCount := acc.1.activeRailCount + 1,
                              emptyRails := acc.1.emptyRails.erase myRail }
          let r := setRailExpecting r myRail ip.2 myColor
          let conns :=
            if commitSet.contains ip.2 then
              acc.2 ++ [⟨myRail, myRail, .straight, myColor⟩]
            else acc.2
          (r, conns)
        else
          match (acc.1.hashToRails.lookup ip.2).getD [] with
          | existingRail :: _ =>
            (acc.1, acc.2 ++ [⟨myRail, existingRail, .branch,
              ((acc.1.activeRails.getD existingRail none).map Prod.snd).getD 0⟩])
          | [] =>
            let ar := allocateRail acc.1
            let newColor := ar.1.colorCounter % COLOR_COUNT
            let r := { ar.1 with colorCounter := ar.1.colorCounter + 1 }
            let r := setRailExpecting r ar.2 ip.2 newColor
            (r, acc.2 ++ [⟨myRail, ar.2, .branch, newColor⟩]))
      (r, conns)

/-- One iteration of the optimized `calculateGraphLayout` loop. -/
def optStep (commitSet : List String) (s : OptState) (commit : CommitInfo) :
    OptState :=
  let r0 := s.rails
  let railsExpectingMe : List Nat := (r0.hashToRails.lookup commit.hash).getD []
  let sel : RailState × Nat × Nat :=
    match railsExpectingMe with
    | i :: _ => (r0, i, ((r0.activeRails.getD i none).map Prod.snd).getD 0)
    | [] =>
      let ar := allocateRail r0
      ({ ar.1 with colorCounter := ar.1.colorCounter + 1 }, ar.2,
        ar.1.colorCounter % COLOR_COUNT)
  let myRail := sel.2.1
  let myColor := sel.2.2
  let cleared : RailState × List GraphConnection :=
    railsExpectingMe.foldl
      (fun acc railIdx =>
        let conns :=
          if railIdx ≠ myRail then
            acc.2 ++ [⟨railIdx, myRail, .merge,
              ((acc.1.activeRails.getD railIdx none).map Prod.snd).getD 0⟩]
          else acc.2
        (clearRail acc.1 railIdx, conns))
      (sel.1, [])
  let pp := optParentPhase commitSet commit myRail myColor cleared.1 cleared.2
  let newMax := max (max s.maxRails pp.1.activeRailCount) ((myRail : Int) + 1)
  let pass := passThrough pp.1.activeRails (involvedRails myRail pp.2)
  { nodes := aset s.nodes commit.hash ⟨myRail, myColor, pp.2, pass⟩,
    maxRails := newMax,
    rails := pp.1 }

/-- Initial rail state of the optimized pass. -/
def initRails : RailState := ⟨[], [], [], 0, 0⟩

/-- The optimized `calculateGraphLayout` from `src/lib/graphUtils`. -/
def calculateGraphLayoutOpt (commits : List CommitInfo) : GraphLayout :=
  if commits.isEmpty then ⟨[], 0⟩
  else
    let commitSet := commits.map (·.hash)
    let final := commits.foldl (optStep commitSet) ⟨[], 0, initRails⟩
    ⟨final.nodes, final.maxRails⟩

/-- Full state of the naive layout pass. -/
structure NaiveState where
  nodes : List (String × GraphNode)
  activeRails : List (Option (String × Nat))
  maxRails : Int
  colorCounter : Nat
deriving DecidableEq, Repr

/-- Parent handling of the naive version; returns the updated rail array,
connections and colour counter. -/
def naiveParentPhase (commitSet : List String) (commit : CommitInfo)
    (myRail myColor : Nat) (rails : List (Option (String × Nat)))
    (conns : List GraphConnection) (counter : Nat) :
    List (Option (String × Nat)) × List GraphConnection × Nat :=
  match commit.parent_ids with
  | [] => (rails.set myRail none, conns, counter)
  | [parentHash] =>
    (rails.set myRail (some (parentHash, myColor)),
     (if commitSet.contains parentHash then
        conns ++ [⟨myRail, myRail, .straight, myColor⟩]
      else conns),
     counter)
  | ps =>
    ps.enum.foldl
      (fun acc ip =>
        if ip.1 = 0 then
          (acc.1.set myRail (some (ip.2, myColor)),
           (if commitSet.contains ip.2 then
              acc.2.1 ++ [⟨myRail, myRail, .straight, myColor⟩]
            else acc.2.1),
           acc.2.2)
        else
          match acc.1.findIdx? (fun rl =>
              match rl with
              | some x => x.1 == ip.2
              | none => false) with
          | some existingRail =>
            (acc.1, acc.2.1 ++ [⟨myRail, existingRail, .branch,
              ((acc.1.getD existingRail none).map Prod.snd).getD 0⟩], acc.2.2)
          | none =>
            let newColor := acc.2.2 % 8
            match acc.1.findIdx? (fun rl => rl.isNone) with
            | some e =>
              (acc.1.set e (some (ip.2, newColor)),
               acc.2.1 ++ [⟨myRail, e, .branch, newColor⟩], acc.2.2 + 1)
            | none =>
              (acc.1 ++ [some (ip.2, newColor)],
               acc.2.1 ++ [⟨myRail, acc.1.length, .branch, newColor⟩], acc.2.2 + 1))
      (rails, conns, counter)

/-- One iteration of the naive `calculateGraphLayout` loop. -/
def naiveStep (commitSet : List String) (s : NaiveState) (commit : CommitInfo) :
    NaiveState :=
  let railsExpectingMe : List Nat :=
    (List.range s.activeRails.length).filter fun i =>
      match s.activeRails.getD i none with
      | some rl => rl.1 == commit.hash
      | none => false
  let sel : List (Option (String × Nat)) × Nat × Nat × Nat :=
    match railsExpectingMe with
    | i :: _ =>
      (s.activeRails, i, ((s.activeRails.getD i none).map Prod.snd).getD 0,
       s.colorCounter)
    | [] =>
      let myColor := s.colorCounter % 8
      match s.activeRails.findIdx? (fun rl => rl.isNone) with
      | some i => (s.activeRails, i, myColor, s.colorCounter + 1)
      | none =>
        (s.activeRails ++ [none], s.activeRails.length, myColor, s.colorCounter + 1)
  let myRail := sel.2.1
  let myColor := sel.2.2.1
  let cleared : List (Option (String × Nat)) × List GraphConnection :=
    railsExpectingMe.foldl
      (fun acc railIdx =>
        let conns :=
          if railIdx ≠ myRail then
            acc.2 ++ [⟨railIdx, myRail, .merge,
              ((acc.1.getD railIdx none).map Prod.snd).getD 0⟩]
          else acc.2
        (acc.1.set railIdx none, conns))
      (sel.1, [])
  let pp := naiveParentPhase commitSet commit myRail myColor cleared.1 cleared.2 sel.2.2.2
  let activeCount : Int := ((pp.1.filter fun rl => rl.isSome).length : Int)
  let newMax := max (max s.maxRails activeCount) ((myRail : Int) + 1)
  let pass := passThrough pp.1 (involvedRails myRail pp.2.1)
  { nodes := aset s.nodes commit.hash ⟨myRail, myColor, pp.2.1, pass⟩,
    activeRails := pp.1,
    maxRails := newMax,
    colorCounter := pp.2.2 }

/-- The naive `calculateGraphLayout` from `src/lib/graphUtils`. -/
def calculateGraphLayoutNaive (commits : List CommitInfo) : GraphLayout :=
  if commits.isEmpty then ⟨[], 0⟩
  else
    let commitSet := commits.map (·.hash)
    let final := commits.foldl (naiveStep commitSet) ⟨[], [], 0, 0⟩
    ⟨final.nodes, final.maxRails⟩

/-- Two layouts agree when they report the same `maxRails` and, for every
commit hash, the same node (rail, colour, connections, pass-throughs). -/
def layoutAgrees (L1 L2 : GraphLayout) : Prop :=
  L1.maxRails = L2.maxRails ∧ ∀ h : String, L1.nodes.lookup h = L2.nodes.lookup h

/-- A linear first-parent chain, newest first: each commit's sole parent
is the next hash in the list; the last commit is a root. -/
def chainCommits : List String → List CommitInfo
  | [] => []
  | [h] => [mkCI h []]
  | h :: h2 :: t => mkCI h [h2] :: chainCommits (h2 :: t)

/-- A six-commit history on which the two layout versions disagree: three
unrelated tips, two of whose parents are roots inside the window, then a
commit whose parent is outside the window.  After the two roots free rails
1 and 2, the optimized version reuses the most recently freed rail (2) for
the last commit while the naive version reuses the lowest free rail (1). -/
def exCommits : List CommitInfo :=
  [mkCI "1" ["a"], mkCI "2" ["b"], mkCI "3" ["c"],
   mkCI "b" [], mkCI "c" [], mkCI "d" ["e"]]

/-! ## Diff viewer search navigation (from `src/lib/DiffViewer.svelte`)

The diff viewer derives `matches` (one entry per diff line whose content
contains the query, case-insensitively) and navigates them with
`goToNextMatch` / `goToPrevMatch`, which update `currentMatchIndex` with
wrap-around modular arithmetic.  JavaScript numbers are modelled as `Int`
so that `currentMatchIndex - 1` does not clamp at zero. -/

/-- `DiffLine` from `src/lib/types`. -/
structure DiffLine where
  line_type : String
  content : String
  old_line_no : Option Nat
  new_line_no : Option Nat
deriving DecidableEq, Repr

/-- `FileDiff` from `src/lib/types`. -/
structure FileDiff where
  path : String
  status : String
  old_path : Option String
  insertions : Nat
  deletions : Nat
  lines : List DiffLine
deriving DecidableEq, Repr

/-- `DiffStats` from `src/lib/types`. -/
structure DiffStats where
  insertions : Nat
  deletions : Nat
  files_changed : Nat
deriving DecidableEq, Repr

/-- `CommitDiff` from `src/lib/types`. -/
structure CommitDiff where
  hash : String
  message : String
  author : String
  date : Nat
  stats : DiffStats
  files : List FileDiff
deriving DecidableEq, Repr

/-- JavaScript `String.prototype.includes` on character lists: the needle
occurs as a contiguous run of the haystack. -/
def charsIncludes (s q : List Char) : Bool :=
  s.tails.any fun t => q.isPrefixOf t

/-- JavaScript `String.prototype.includes`. -/
def strIncludes (s q : String) : Bool :=
  charsIncludes s.toList q.toList

/-- JavaScript `String.prototype.trim`: strip whitespace from both
ends. -/
def strTrim (s : String) : String :=
  ⟨((s.toList.dropWhile (·.isWhitespace)).reverse.dropWhile (·.isWhitespace)).reverse⟩

/-- JavaScript `String.prototype.toLowerCase`. -/
def strToLower (s : String) : String :=
  ⟨s.toList.map Char.toLower⟩

/-- The derived `matches` list of the diff viewer: for each file, the
indices of the lines whose content contains the query case-insensitively;
empty for a blank query. -/
def diffMatches (diff : CommitDiff) (searchQuery : String) : List (String × Nat) :=
  if strTrim searchQuery = "" then []
  else
    let query := strToLower searchQuery
    diff.files.flatMap fun file =>
      file.lines.enum.filterMap fun li =>
        if strIncludes (strToLower li.2.content) query then some (file.path, li.1)
        else none

/-- The component state relevant to search navigation. -/
structure DiffSearchState where
  diff : CommitDiff
  searchQuery : String
  currentMatchIndex : Int
deriving Repr

/-- The derived `matchCount`. -/
def matchCountOf (st : DiffSearchState) : Nat :=
  (diffMatches st.diff st.searchQuery).length

/-- `goToNextMatch`: advance with wrap-around when there are matches. -/
def goToNextMatch (st : DiffSearchState) : DiffSearchState :=
  if 0 < matchCountOf st then
    { st with currentMatchIndex :=
        (st.currentMatchIndex + 1) % (matchCountOf st : Int) }
  else st

/-- `goToPrevMatch`: step back with wrap-around when there are matches. -/
def goToPrevMatch (st : DiffSearchState) : DiffSearchState :=
  if 0 < matchCountOf st then
    { st with currentMatchIndex :=
        (st.currentMatchIndex - 1 + (matchCountOf st : Int)) % (matchCountOf st : Int) }
  else st

/-- A one-file diff with two lines containing the letter x, used as a
concrete search scenario. -/
def exDiff : CommitDiff :=
  ⟨"h", "msg", "au", 0, ⟨1, 0, 1⟩,
   [⟨"f.txt", "Modified", none, 1, 0,
     [⟨"add", "xx", none, some 1⟩, ⟨"context", "axb", some 1, some 2⟩]⟩]⟩

/-! ## Theorems -/

/-- C4: with a dirty working tree and auto-stash disabled, the guard fails
with `DirtyWorkingDirectory` without invoking the wrapped operation (the
result is the same for every `op`) and without changing any state: the
returned state is the input state, so the branch reference inside the
repository payload has not moved. -/
theorem runGuarded_dirty_rejects {α β : Type}
    (op : GState α → Except EngineError β × GState α) (s : GState α)
    (hdirty : s.dirty ≠ []) :
    runGuarded op false s = (.error .DirtyWorkingDirectory, s) := by
  unfold runGuarded
  simp [hdirty]

/-- Witness for `runGuarded_dirty_rejects` at a concrete dirty state. -/
theorem runGuarded_dirty_rejects_witness :
    runGuarded (fun (u : GState Nat) => ((.ok 7 : Except EngineError Nat), u)) false
        ⟨["w.txt"], [], 0⟩
      = (.error .DirtyWorkingDirectory, ⟨["w.txt"], [], 0⟩) :=
  runGuarded_dirty_rejects _ _ (by simp)

/-- C3: with a dirty working tree and auto-stash enabled, the guard saves
a stash entry and then pops it after the wrapped operation on both of the
operation's exit paths — the operation's result (success or failure) is
returned untouched when the pop succeeds, with the working tree and stash
stack restored to their pre-operation values; when the pop itself fails
(uncommitted changes present at pop time) the outcome is
`StashRestoreConflict` and the saved entry is still on top of the stash
stack, not dropped.  `hstash` states that the wrapped rewrite operation
does not touch the stash. -/
theorem runGuarded_autoStash_round_trip {α β : Type}
    (op : GState α → Except EngineError β × GState α) (s : GState α)
    (hdirty : s.dirty ≠ [])
    (hstash : ∀ u, ((op u).2).stash = u.stash) :
    (((op (stashSave s)).2).dirty = [] →
       runGuarded op true s
         = ((op (stashSave s)).1,
            ⟨s.dirty, s.stash, ((op (stashSave s)).2).repo⟩))
    ∧ (((op (stashSave s)).2).dirty ≠ [] →
       runGuarded op true s = (.error .StashRestoreConflict, (op (stashSave s)).2)
       ∧ ((op (stashSave s)).2).stash = s.dirty :: s.stash) := by
  have hst : ((op (stashSave s)).2).stash = s.dirty :: s.stash := by
    rw [hstash]; rfl
  have hpop : stashPop (op (stashSave s)).2
      = if ((op (stashSave s)).2).dirty = []
        then some ⟨s.dirty, s.stash, ((op (stashSave s)).2).repo⟩
        else none := by
    unfold stashPop
    rw [hst]
  constructor
  · intro hclean
    unfold runGuarded
    rw [if_neg hdirty, if_neg (by simp)]
    simp only [hpop, hclean, if_true, reduceIte]
  · intro hdirty2
    refine ⟨?_, hst⟩
    unfold runGuarded
    rw [if_neg hdirty, if_neg (by simp)]
    simp only [hpop, if_neg hdirty2]

/-- Witness for `runGuarded_autoStash_round_trip`: a concrete dirty state
and an operation that leaves the tree clean and the stash unchanged. -/
theorem runGuarded_autoStash_round_trip_witness :
    ((exOp (stashSave exGState)).2.dirty = [] →
       runGuarded exOp true exGState
         = ((exOp (stashSave exGState)).1,
            ⟨exGState.dirty, exGState.stash, (exOp (stashSave exGState)).2.repo⟩))
    ∧ ((exOp (stashSave exGState)).2.dirty ≠ [] →
       runGuarded exOp true exGState
         = (.error .StashRestoreConflict, (exOp (stashSave exGState)).2)
       ∧ (exOp (stashSave exGState)).2.stash = exGState.dirty :: exGState.stash) :=
  runGuarded_autoStash_round_trip exOp exGState (by simp [exGState]) (fun u => rfl)

/-- C6: a squash request with fewer than two targets (zero or one) fails
with `EmptySquashSet`, leaving the repository — store and branch
reference — unchanged. -/
theorem squashCommits_too_few_targets (r : Repo) (ts : List Obj) (msg : String)
    (h : ts.length < 2) :
    squashCommits r ts msg = (.error .EmptySquashSet, r) := by
  match ts with
  | [] => rfl
  | [_] => rfl
  | t1 :: t2 :: ts' => exact absurd h (by simp [List.length_cons])

/-- Witness for `squashCommits_too_few_targets` on a one-element target
set. -/
theorem squashCommits_too_few_targets_witness :
    squashCommits ⟨[], .root 0 "a" "m"⟩ [.root 1 "b" "x"] "new"
      = (.error .EmptySquashSet, ⟨[], .root 0 "a" "m"⟩) :=
  squashCommits_too_few_targets _ _ _ (by simp)

/-- C5, counterexample: the hash list handed to the `squash_commits`
command by `performSquash` is the selection in insertion order, not sorted
oldest → newest.  Selecting the newer commit first yields the supplied
list ["new", "old"], whose dates (2, 1) are not non-decreasing. -/
theorem squashRequest_selection_order_counterexample :
    ¬ sortedOldestFirst exDate
        (squashRequestHashes (selAdd (selAdd [] "new") "old")) := by
  unfold squashRequestHashes selAdd exDate
  decide

/-- C5, amended: the UI supplies the selection in user-selection order;
it is the engine that sorts the squash targets by commit date, oldest
first, before planning (LIFECYCLE step 1), so the planner's ordered target
list is sorted oldest → newest regardless of the order in which the user
selected the commits. -/
theorem engine_sort_targets_sorted (dateOf : String → Nat) (sel : List String) :
    sortedOldestFirst dateOf (sortTargetsByDate dateOf (squashRequestHashes sel)) := by
  unfold sortedOldestFirst sortTargetsByDate squashRequestHashes
  letI : IsTotal String (fun a b => dateOf a ≤ dateOf b) :=
    ⟨fun a b => Nat.le_total _ _⟩
  letI : IsTrans String (fun a b => dateOf a ≤ dateOf b) :=
    ⟨fun _ _ _ hab hbc => le_trans hab hbc⟩
  exact List.sorted_insertionSort _ _

/-- Wrap-around arithmetic: one step forward then one step back modulo m
is the identity on [0, m). -/
theorem emod_next_prev (i m : Int) (h0 : 0 ≤ i) (h1 : i < m) :
    ((i + 1) % m - 1 + m) % m = i := by
  rcases lt_or_le (i + 1) m with hc | hc
  · rw [Int.emod_eq_of_lt (by omega) hc]
    have h2 : i + 1 - 1 + m = i + m := by ring
    rw [h2, Int.add_emod_self, Int.emod_eq_of_lt h0 h1]
  · have hem : i + 1 = m := by omega
    rw [hem, Int.emod_self]
    have h2 : (0 : Int) - 1 + m = i := by omega
    rw [h2, Int.emod_eq_of_lt h0 h1]

/-- Wrap-around arithmetic: one step back then one step forward modulo m
is the identity on [0, m). -/
theorem emod_prev_next (i m : Int) (h0 : 0 ≤ i) (h1 : i < m) :
    ((i - 1 + m) % m + 1) % m = i := by
  rcases eq_or_lt_of_le h0 with hc | hc
  · have h2 : (i - 1 + m) % m = m - 1 := by
      have h2a : i - 1 + m = m - 1 := by omega
      rw [h2a]
      exact Int.emod_eq_of_lt (by omega) (by omega)
    rw [h2]
    have h3 : m - 1 + 1 = m := by ring
    rw [h3, Int.emod_self, ← hc]
  · have h2 : (i - 1 + m) % m = i - 1 := by
      rw [Int.add_emod_self]
      exact Int.emod_eq_of_lt (by omega) (by omega)
    rw [h2]
    have h3 : i - 1 + 1 = i := by ring
    rw [h3, Int.emod_eq_of_lt h0 h1]

/-- C9: in the diff viewer, while there is at least one match and the
current index is in range, `goToNextMatch` and `goToPrevMatch` keep
`currentMatchIndex` inside [0, matchCount), and the two navigations are
mutually inverse: next-then-prev and prev-then-next both restore the
original state. -/
theorem diff_search_nav_bounds_and_inverse (st : DiffSearchState)
    (hpos : 0 < matchCountOf st)
    (hlo : 0 ≤ st.currentMatchIndex)
    (hhi : st.currentMatchIndex < (matchCountOf st : Int)) :
    (0 ≤ (goToNextMatch st).currentMatchIndex
      ∧ (goToNextMatch st).currentMatchIndex < (matchCountOf st : Int))
    ∧ (0 ≤ (goToPrevMatch st).currentMatchIndex
      ∧ (goToPrevMatch st).currentMatchIndex < (matchCountOf st : Int))
    ∧ goToPrevMatch (goToNextMatch st) = st
    ∧ goToNextMatch (goToPrevMatch st) = st := by
  obtain ⟨d, q, i⟩ := st
  simp only [matchCountOf] at hpos hlo hhi ⊢
  have hmpos : (0 : Int) < ((diffMatches d q).length : Int) := by exact_mod_cast hpos
  have hnext : ∀ j : Int, goToNextMatch ⟨d, q, j⟩
      = ⟨d, q, (j + 1) % ((diffMatches d q).length : Int)⟩ := by
    intro j
    simp only [goToNextMatch, matchCountOf]
    rw [if_pos hpos]
  have hprev : ∀ j : Int, goToPrevMatch ⟨d, q, j⟩
      = ⟨d, q, (j - 1 + ((diffMatches d q).length : Int))
                 % ((diffMatches d q).length : Int)⟩ := by
    intro j
    simp only [goToPrevMatch, matchCountOf]
    rw [if_pos hpos]
  refine ⟨⟨?_, ?_⟩, ⟨?_, ?_⟩, ?_, ?_⟩
  · rw [hnext i]; exact Int.emod_nonneg _ (by omega)
  · rw [hnext i]; exact Int.emod_lt_of_pos _ hmpos
  · rw [hprev i]; exact Int.emod_nonneg _ (by omega)
  · rw [hprev i]; exact Int.emod_lt_of_pos _ hmpos
  · rw [hnext i, hprev _, emod_next_prev i _ hlo hhi]
  · rw [hprev i, hnext _, emod_prev_next i _ hlo hhi]

/-- Witness for `diff_search_nav_bounds_and_inverse` on the concrete
two-match diff, starting from match index 1. -/
theorem diff_search_nav_bounds_and_inverse_witness :
    0 < matchCountOf ⟨exDiff, "x", 1⟩
    ∧ goToPrevMatch (goToNextMatch ⟨exDiff, "x", 1⟩) = ⟨exDiff, "x", 1⟩ :=
  ⟨by decide,
   (diff_search_nav_bounds_and_inverse ⟨exDiff, "x", 1⟩
      (by decide) (by decide) (by decide)).2.2.1⟩

/-- A commit is strictly larger than its parent. -/
theorem sizeOf_parent_lt (t : Nat) (p : Obj) (a m : String) :
    sizeOf p < sizeOf (Obj.child t p a m) := by
  simp [Obj.child.sizeOf_spec]
  omega

/-- Stacking distributes over list append. -/
theorem stack_append (o : Obj) (l1 l2 : List CommitData) :
    stack o (l1 ++ l2) = stack (stack o l1) l2 := by
  induction l1 generalizing o with
  | nil => rfl
  | cons d l ih =>
    obtain ⟨t, a, m⟩ := d
    simp only [List.cons_append, stack]
    exact ih _

/-- The created commits of an appended stacking. -/
theorem above_append (o : Obj) (l1 l2 : List CommitData) :
    above o (l1 ++ l2) = above o l1 ++ above (stack o l1) l2 := by
  induction l1 generalizing o with
  | nil => rfl
  | cons d l ih =>
    obtain ⟨t, a, m⟩ := d
    show Obj.child t o a m :: above (Obj.child t o a m) (l ++ l2)
        = (Obj.child t o a m :: above (Obj.child t o a m) l)
          ++ above (stack (Obj.child t o a m) l) l2
    rw [ih]
    simp

/-- Stacking can only grow a commit. -/
theorem sizeOf_le_stack (o : Obj) (l : List CommitData) :
    sizeOf o ≤ sizeOf (stack o l) := by
  induction l generalizing o with
  | nil => exact le_refl _
  | cons d l ih =>
    obtain ⟨t, a, m⟩ := d
    simp only [stack]
    exact le_trans (le_of_lt (sizeOf_parent_lt t o a m)) (ih _)

/-- Every commit stacked above a base is strictly larger than the base. -/
theorem sizeOf_lt_of_mem_above (o : Obj) (l : List CommitData) (c : Obj)
    (h : c ∈ above o l) : sizeOf o < sizeOf c := by
  induction l generalizing o with
  | nil => simp [above] at h
  | cons d l ih =>
    obtain ⟨t, a, m⟩ := d
    simp only [above, List.mem_cons] at h
    rcases h with h | h
    · rw [h]; exact sizeOf_parent_lt t o a m
    · exact lt_trans (sizeOf_parent_lt t o a m) (ih _ h)

/-- Every member of a stacked chain is at most as large as its tip. -/
theorem sizeOf_mem_above_le_stack (o : Obj) (l : List CommitData) (c : Obj)
    (h : c ∈ above o l) : sizeOf c ≤ sizeOf (stack o l) := by
  induction l generalizing o with
  | nil => simp [above] at h
  | cons d l ih =>
    obtain ⟨t, a, m⟩ := d
    simp only [above, List.mem_cons] at h
    simp only [stack]
    rcases h with h | h
    · rw [h]; exact sizeOf_le_stack _ l
    · exact ih _ h

/-- Every member of a stacked chain, base included, is at most as large
as its tip. -/
theorem sizeOf_mem_cons_above_le_stack (o : Obj) (l : List CommitData) (c : Obj)
    (h : c ∈ o :: above o l) : sizeOf c ≤ sizeOf (stack o l) := by
  rcases List.mem_cons.mp h with h | h
  · rw [h]; exact sizeOf_le_stack o l
  · exact sizeOf_mem_above_le_stack o l c h

/-- The ancestry of a stacked tip: the created commits in reverse, then
the base's own ancestry. -/
theorem ancestors_stack (o : Obj) (l : List CommitData) :
    ancestors (stack o l) = (above o l).reverse ++ ancestors o := by
  induction l generalizing o with
  | nil => simp [stack, above]
  | cons d l ih =>
    obtain ⟨t, a, m⟩ := d
    simp only [stack, above]
    rw [ih]
    have : ancestors (Obj.child t o a m) = Obj.child t o a m :: ancestors o := rfl
    rw [this]
    simp

/-- `takeThrough` stops exactly at the first satisfying element. -/
theorem takeThrough_append (p : Obj → Bool) (l : List Obj) (x : Obj) (r : List Obj)
    (hl : ∀ y ∈ l, p y = false) (hx : p x = true) :
    takeThrough p (l ++ x :: r) = some (l ++ [x]) := by
  induction l with
  | nil => simp [takeThrough, hx]
  | cons y l ih =>
    have hy : p y = false := hl y (by simp)
    show takeThrough p (y :: (l ++ x :: r)) = _
    simp only [takeThrough, hy]
    rw [ih (fun z hz => hl z (by simp [hz]))]
    simp

/-- The linearizer's downward walk from a stacked tip finds the base as
the first (deepest-scanned) occurrence: every commit stacked above it is
strictly larger and hence distinct. -/
theorem takeThrough_stack (o : Obj) (rest : List CommitData) :
    takeThrough (fun c => c == o) (ancestors (stack o rest))
      = some ((above o rest).reverse ++ [o]) := by
  rw [ancestors_stack]
  have hanc : ∃ tl, ancestors o = o :: tl := by
    cases o
    · exact ⟨_, rfl⟩
    · exact ⟨_, rfl⟩
  obtain ⟨tl, htl⟩ := hanc
  rw [htl]
  refine takeThrough_append _ _ _ _ (fun y hy => ?_) (by simp)
  have hmem : y ∈ above o rest := List.mem_reverse.mp hy
  have hlt := sizeOf_lt_of_mem_above o rest y hmem
  have hne : y ≠ o := by
    intro he
    rw [he] at hlt
    exact lt_irrefl _ hlt
  simpa using hne

/-- Linearizing from a stacked tip down to a non-root base succeeds with
the base's parent as lower bound and the chain base-through-tip, oldest
first. -/
theorem linearize_stack_child (lb : Obj) (t : Nat) (a m : String)
    (rest : List CommitData) :
    linearize (stack (Obj.child t lb a m) rest) (Obj.child t lb a m)
      = .ok (lb, Obj.child t lb a m :: above (Obj.child t lb a m) rest) := by
  unfold linearize
  rw [takeThrough_stack]
  simp [Obj.parent?]

/-- Linearizing from a stacked tip down to a root base fails with
`InitialCommitUnmodifiable`. -/
theorem linearize_stack_root (t : Nat) (a m : String) (rest : List CommitData) :
    linearize (stack (Obj.root t a m) rest) (Obj.root t a m)
      = .error .InitialCommitUnmodifiable := by
  unfold linearize
  rw [takeThrough_stack]
  rfl

/-- Re-committing the stacked commits verbatim yields their data. -/
theorem map_dataStep_above (o : Obj) (l : List CommitData) :
    (above o l).map (fun c => (⟨c.tree, c.author, c.message⟩ : PlanStep))
      = l.map dataStep := by
  induction l generalizing o with
  | nil => rfl
  | cons d l ih =>
    obtain ⟨t, a, m⟩ := d
    show (⟨Obj.tree _, Obj.author _, Obj.message _⟩ : PlanStep)
        :: (above (Obj.child t o a m) l).map
             (fun c => (⟨c.tree, c.author, c.message⟩ : PlanStep))
      = dataStep (t, a, m) :: l.map dataStep
    rw [ih]
    rfl

/-- The edit plan over a stacked chain: the base step carries the new
message, every step above re-commits its original data. -/
theorem planEdit_stack (t : Nat) (lb : Obj) (a m : String)
    (rest : List CommitData) (newMsg : String) :
    planEdit (Obj.child t lb a m) newMsg
        (Obj.child t lb a m :: above (Obj.child t lb a m) rest)
      = ⟨t, a, newMsg⟩ :: rest.map dataStep := by
  unfold planEdit
  rw [List.map_cons, if_pos rfl]
  have hcong : ∀ c ∈ above (Obj.child t lb a m) rest,
      (if c = Obj.child t lb a m then (⟨c.tree, c.author, newMsg⟩ : PlanStep)
       else ⟨c.tree, c.author, c.message⟩)
        = ⟨c.tree, c.author, c.message⟩ := by
    intro c hc
    have hlt := sizeOf_lt_of_mem_above _ rest c hc
    refine if_neg fun he => ?_
    rw [he] at hlt
    exact lt_irrefl _ hlt
  rw [List.map_congr_left hcong, map_dataStep_above]
  rfl

/-- Recreating a plan of verbatim data steps stacks the data onto the
lower bound and writes exactly the stacked commits. -/
theorem recreate_dataSteps (lb : Obj) (l : List CommitData) (store : List Obj) :
    recreate lb (l.map dataStep) store = (stack lb l, store ++ above lb l) := by
  induction l generalizing lb store with
  | nil => simp [recreate, stack, above]
  | cons d l ih =>
    obtain ⟨t, a, m⟩ := d
    show recreate (Obj.child t lb a m) (l.map dataStep) (store ++ [Obj.child t lb a m])
      = _
    rw [ih]
    simp [stack, above]

/-- C1: editing the message of a commit with a parent `lb`, sitting
`rest.length` positions below the branch tip of a single-parent chain,
recreates that commit and every descendant up to and including the tip:
the recreated target keeps its tree and author with the new message and is
re-parented onto `lb`; every step above re-commits its original tree,
author and message onto the previous freshly created commit; the store
gains exactly the recreated commits; everything at or below `lb` is the
untouched original object (same hash); and the branch reference ends at
the recreated tip. -/
theorem editMessage_rewrites_descendants (store : List Obj) (lb : Obj)
    (t : Nat) (a m : String) (rest : List CommitData) (newMsg : String) :
    editMessage ⟨store, stack (Obj.child t lb a m) rest⟩ (Obj.child t lb a m) newMsg
      = (.ok (),
         ⟨store ++ (Obj.child t lb a newMsg :: above (Obj.child t lb a newMsg) rest),
          stack (Obj.child t lb a newMsg) rest⟩) := by
  unfold editMessage
  simp only [linearize_stack_child]
  rw [planEdit_stack]
  have hsteps : (⟨t, a, newMsg⟩ : PlanStep) :: rest.map dataStep
      = ((t, a, newMsg) :: rest).map dataStep := rfl
  rw [hsteps, recreate_dataSteps]
  rfl

/-- C7: neither an edit nor a squash may target the root commit: with the
root (a commit with zero parents) as edit target, or as oldest member of a
squash range, the operation fails with `InitialCommitUnmodifiable` and the
repository — store and branch reference — is returned unchanged, so no
commit objects are written. -/
theorem root_target_unmodifiable (store : List Obj) (t : Nat) (a m newMsg : String)
    (rest mids : List CommitData) (hm : mids ≠ []) :
    editMessage ⟨store, stack (Obj.root t a m) rest⟩ (Obj.root t a m) newMsg
      = (.error .InitialCommitUnmodifiable, ⟨store, stack (Obj.root t a m) rest⟩)
    ∧ squashCommits ⟨store, stack (Obj.root t a m) (mids ++ rest)⟩
        (Obj.root t a m :: above (Obj.root t a m) mids) newMsg
      = (.error .InitialCommitUnmodifiable,
         ⟨store, stack (Obj.root t a m) (mids ++ rest)⟩) := by
  constructor
  · unfold editMessage
    simp only [linearize_stack_root]
  · match mids, hm with
    | (dt, da, dm) :: l, _ =>
      show squashCommits _
          (Obj.root t a m :: Obj.child dt (Obj.root t a m) da dm
            :: above (Obj.child dt (Obj.root t a m) da dm) l) newMsg = _
      unfold squashCommits
      simp only [linearize_stack_root]

/-- The last element of a stacked chain, base included, is its tip. -/
theorem getLastD_cons_above (o : Obj) (l : List CommitData) (dflt : Obj) :
    (o :: above o l).getLastD dflt = stack o l := by
  induction l generalizing o dflt with
  | nil => rfl
  | cons d l ih =>
    obtain ⟨t, a, m⟩ := d
    show (o :: Obj.child t o a m :: above (Obj.child t o a m) l).getLastD dflt
      = stack (Obj.child t o a m) l
    rw [List.getLastD_cons]
    exact ih _ _

/-- The tip of a nonempty stacking carries the tree and author of the
last stacked datum. -/
theorem stack_tree_author (o : Obj) (d d0 : CommitData) (l : List CommitData) :
    (stack o (d :: l)).tree = ((d :: l).getLastD d0).1
    ∧ (stack o (d :: l)).author = ((d :: l).getLastD d0).2.1 := by
  induction l generalizing o d d0 with
  | nil =>
    obtain ⟨t, a, m⟩ := d
    exact ⟨rfl, rfl⟩
  | cons d2 l ih =>
    obtain ⟨t, a, m⟩ := d
    show (stack (Obj.child t o a m) (d2 :: l)).tree = ((d2 :: l).getLastD (t, a, m)).1
      ∧ (stack (Obj.child t o a m) (d2 :: l)).author
          = ((d2 :: l).getLastD (t, a, m)).2.1
    exact ih _ _ _

/-- A list whose members all belong to another list passes the planner's
containment check. -/
theorem all_contains_of_sub (l1 l2 : List Obj) (h : ∀ x ∈ l1, x ∈ l2) :
    l1.all (fun c => l2.contains c) = true := by
  rw [List.all_eq_true]
  intro x hx
  exact List.elem_eq_true_of_mem (h x hx)

/-- The squash plan over the squash range itself: members older than the
newest are elided, the newest member contributes the single step with its
own tree and author and the new message. -/
theorem filterMap_squash_targets (msg : String) (l : List CommitData) :
    ∀ (o : Obj) (ts : List Obj), (∀ c ∈ o :: above o l, c ∈ ts) →
      List.filterMap (squashFilter ts (stack o l) msg) (o :: above o l)
        = [⟨(stack o l).tree, (stack o l).author, msg⟩] := by
  induction l with
  | nil =>
    intro o ts _
    simp [squashFilter, stack, above]
  | cons d l ih =>
    obtain ⟨t, a, m⟩ := d
    intro o ts h
    show List.filterMap (squashFilter ts (stack (Obj.child t o a m) l) msg)
        (o :: Obj.child t o a m :: above (Obj.child t o a m) l) = _
    rw [List.filterMap_cons]
    have hne : o ≠ stack (Obj.child t o a m) l := by
      intro he
      have h1 := sizeOf_parent_lt t o a m
      have h2 := sizeOf_le_stack (Obj.child t o a m) l
      rw [← he] at h2
      omega
    have hcont : ts.contains o = true :=
      List.elem_eq_true_of_mem (h o (by simp))
    have hnone : squashFilter ts (stack (Obj.child t o a m) l) msg o = none := by
      unfold squashFilter
      rw [if_neg hne, if_pos hcont]
    rw [hnone]
    exact ih _ ts (fun c hc => h c (List.mem_cons.mpr (Or.inr hc)))

/-- The squash plan over the commits after the range: every one of them,
being strictly larger than the squashed tip and hence outside the squash
set, is re-emitted verbatim. -/
theorem filterMap_squash_rest (msg : String) (ts : List Obj) (newest : Obj)
    (rest : List CommitData)
    (hts : ∀ x ∈ ts, sizeOf x ≤ sizeOf newest) :
    ∀ (o : Obj), sizeOf newest ≤ sizeOf o →
      List.filterMap (squashFilter ts newest msg) (above o rest)
        = rest.map dataStep := by
  induction rest with
  | nil => intro o _; rfl
  | cons d l ih =>
    obtain ⟨t, a, m⟩ := d
    intro o hle
    show List.filterMap (squashFilter ts newest msg)
        (Obj.child t o a m :: above (Obj.child t o a m) l)
      = dataStep (t, a, m) :: l.map dataStep
    rw [List.filterMap_cons]
    have hlt : sizeOf newest < sizeOf (Obj.child t o a m) :=
      lt_of_le_of_lt hle (sizeOf_parent_lt t o a m)
    have hne : Obj.child t o a m ≠ newest := by
      intro he
      rw [he] at hlt
      exact lt_irrefl _ hlt
    have hnotmem : Obj.child t o a m ∉ ts := by
      intro hmem
      exact absurd (hts _ hmem) (not_le_of_lt hlt)
    have hcont : ts.contains (Obj.child t o a m) = false := by
      simpa using hnotmem
    have hsome : squashFilter ts newest msg (Obj.child t o a m)
        = some (dataStep (t, a, m)) := by
      unfold squashFilter
      rw [if_neg hne, hcont]
      rfl
    rw [hsome]
    rw [ih _ (le_of_lt hlt)]

/-- C2: squashing a contiguous range of single-parent commits — the range
being a first member (with parent `lb`) plus the nonempty `mids` — into
one commit with message `newMsg`: no step is emitted for range members
older than the newest (their trees and messages are discarded); the single
step for the newest member re-commits that member's own tree and author
with `newMsg`, parented directly onto the lower bound `lb`; every commit
after the range is re-emitted with its original tree, author and message
onto the previous freshly created commit; the store gains exactly the
recreated commits and the branch reference ends at the recreated tip. -/
theorem squashCommits_rewrites_range (store : List Obj) (lb : Obj)
    (t0 : Nat) (a0 m0 : String) (mids : List CommitData) (hm : mids ≠ [])
    (rest : List CommitData) (newMsg : String) :
    squashCommits
        ⟨store, stack (Obj.child t0 lb a0 m0) (mids ++ rest)⟩
        (Obj.child t0 lb a0 m0 :: above (Obj.child t0 lb a0 m0) mids) newMsg
      = (.ok (),
         ⟨store
            ++ (Obj.child (mids.getLastD (t0, a0, m0)).1 lb
                  (mids.getLastD (t0, a0, m0)).2.1 newMsg
                :: above (Obj.child (mids.getLastD (t0, a0, m0)).1 lb
                  (mids.getLastD (t0, a0, m0)).2.1 newMsg) rest),
          stack (Obj.child (mids.getLastD (t0, a0, m0)).1 lb
                  (mids.getLastD (t0, a0, m0)).2.1 newMsg) rest⟩) := by
  match mids, hm with
  | (dt, da, dm) :: l, _ =>
    set first := Obj.child t0 lb a0 m0 with hfirst
    set c1 := Obj.child dt first da dm with hc1
    show squashCommits ⟨store, stack first (((dt, da, dm) :: l) ++ rest)⟩
        (first :: c1 :: above c1 l) newMsg = _
    unfold squashCommits
    rw [stack_append]
    have hlin := linearize_stack_child lb t0 a0 m0 (((dt, da, dm) :: l) ++ rest)
    rw [stack_append] at hlin
    simp only [hlin]
    have hchain : above first (((dt, da, dm) :: l) ++ rest)
        = (c1 :: above c1 l) ++ above (stack first ((dt, da, dm) :: l)) rest := by
      rw [above_append]
      rfl
    have heq : (first :: c1 :: above c1 l)
        ++ above (stack first ((dt, da, dm) :: l)) rest
        = first :: above first (((dt, da, dm) :: l) ++ rest) := by
      rw [above_append]
      rfl
    have hsub : (first :: c1 :: above c1 l).all
        (fun c => (first :: above first (((dt, da, dm) :: l) ++ rest)).contains c)
          = true := by
      refine all_contains_of_sub _ _ fun x hx => ?_
      have hx2 : x ∈ (first :: c1 :: above c1 l)
          ++ above (stack first ((dt, da, dm) :: l)) rest :=
        List.mem_append.mpr (Or.inl hx)
      rw [heq] at hx2
      exact hx2
    rw [hsub]
    simp only [if_true]
    have hnewest : (c1 :: above c1 l).getLastD c1 = stack first ((dt, da, dm) :: l) :=
      getLastD_cons_above c1 l c1
    rw [hnewest]
    unfold planSquash
    rw [hchain]
    have hassoc : (Obj.child t0 lb a0 m0 :: ((c1 :: above c1 l)
          ++ above (stack first ((dt, da, dm) :: l)) rest))
        = (first :: c1 :: above c1 l)
          ++ above (stack first ((dt, da, dm) :: l)) rest := rfl
    rw [hassoc]
    rw [List.filterMap_append]
    have hfold : (first :: c1 :: above c1 l)
        = first :: above first ((dt, da, dm) :: l) := rfl
    rw [hfold]
    rw [filterMap_squash_targets newMsg ((dt, da, dm) :: l) first
          (first :: above first ((dt, da, dm) :: l)) (fun c hc => hc)]
    rw [filterMap_squash_rest newMsg (first :: above first ((dt, da, dm) :: l))
          (stack first ((dt, da, dm) :: l)) rest
          (fun x hx => sizeOf_mem_cons_above_le_stack first ((dt, da, dm) :: l) x hx)
          (stack first ((dt, da, dm) :: l)) (le_refl _)]
    obtain ⟨htree, hauthor⟩ :=
      stack_tree_author first (dt, da, dm) (t0, a0, m0) l
    rw [htree, hauthor]
    rw [List.singleton_append]
    have hsteps : (⟨(((dt, da, dm) :: l).getLastD (t0, a0, m0)).1,
          (((dt, da, dm) :: l).getLastD (t0, a0, m0)).2.1, newMsg⟩ : PlanStep)
          :: rest.map dataStep
        = (((((dt, da, dm) :: l).getLastD (t0, a0, m0)).1,
            (((dt, da, dm) :: l).getLastD (t0, a0, m0)).2.1, newMsg) :: rest).map
              dataStep := rfl
    rw [hsteps, recreate_dataSteps]
    rfl

/-- Witness for `squashCommits_rewrites_range`: squash the two-commit
range on top of a root, with one commit after the range. -/
theorem squashCommits_rewrites_range_witness :
    squashCommits
        ⟨[], stack (Obj.child 1 (Obj.root 0 "r" "rm") "a" "m1")
               ([(2, "b", "m2")] ++ [(3, "c", "m3")])⟩
        (Obj.child 1 (Obj.root 0 "r" "rm") "a" "m1"
          :: above (Obj.child 1 (Obj.root 0 "r" "rm") "a" "m1") [(2, "b", "m2")])
        "sq"
      = (.ok (),
         ⟨[]
            ++ (Obj.child ([(2, "b", "m2")].getLastD (1, "a", "m1")).1
                  (Obj.root 0 "r" "rm")
                  ([(2, "b", "m2")].getLastD (1, "a", "m1")).2.1 "sq"
                :: above (Obj.child ([(2, "b", "m2")].getLastD (1, "a", "m1")).1
                  (Obj.root 0 "r" "rm")
                  ([(2, "b", "m2")].getLastD (1, "a", "m1")).2.1 "sq") [(3, "c", "m3")]),
          stack (Obj.child ([(2, "b", "m2")].getLastD (1, "a", "m1")).1
                  (Obj.root 0 "r" "rm")
                  ([(2, "b", "m2")].getLastD (1, "a", "m1")).2.1 "sq") [(3, "c", "m3")]⟩) :=
  squashCommits_rewrites_range [] (Obj.root 0 "r" "rm") 1 "a" "m1"
    [(2, "b", "m2")] (by simp) [(3, "c", "m3")] "sq"

/-- Witness for `root_target_unmodifiable`: edit and squash both aimed at
a concrete root commit. -/
theorem root_target_unmodifiable_witness :
    editMessage ⟨[], stack (Obj.root 0 "a" "m") [(1, "b", "mb")]⟩
        (Obj.root 0 "a" "m") "n"
      = (.error .InitialCommitUnmodifiable,
         ⟨[], stack (Obj.root 0 "a" "m") [(1, "b", "mb")]⟩)
    ∧ squashCommits
        ⟨[], stack (Obj.root 0 "a" "m") ([(1, "b", "mb")] ++ [(1, "b", "mb")])⟩
        (Obj.root 0 "a" "m" :: above (Obj.root 0 "a" "m") [(1, "b", "mb")]) "n"
      = (.error .InitialCommitUnmodifiable,
         ⟨[], stack (Obj.root 0 "a" "m") ([(1, "b", "mb")] ++ [(1, "b", "mb")])⟩) :=
  root_target_unmodifiable [] 0 "a" "m" "n" [(1, "b", "mb")] [(1, "b", "mb")] (by simp)

/-- C8, counterexample: the optimized and naive `calculateGraphLayout` do
not return identical layouts on every input.  On `exCommits` the last
commit is placed on rail 2 by the optimized version (which reuses the most
recently freed rail) but on rail 1 by the naive version (which reuses the
lowest-indexed free rail). -/
theorem graphLayout_opt_naive_differ :
    ¬ layoutAgrees (calculateGraphLayoutOpt exCommits)
        (calculateGraphLayoutNaive exCommits) :=
  fun h => absurd (h.2 "d") (by decide)

/-- Anatomy of one optimized layout step: the nodes map gains (or
replaces) exactly the current commit's entry, the new node's rail is below
the updated `maxRails`, and `maxRails` never decreases. -/
theorem optStep_spec (cs : List String) (s : OptState) (c : CommitInfo) :
    ∃ node : GraphNode,
      (optStep cs s c).nodes = aset s.nodes c.hash node
      ∧ ((node.rail : Int) < (optStep cs s c).maxRails)
      ∧ s.maxRails ≤ (optStep cs s c).maxRails := by
  dsimp only [optStep]
  refine ⟨_, rfl, ?_, ?_⟩
  · exact lt_of_lt_of_le (lt_add_one _) (le_max_right _ _)
  · exact le_trans (le_max_left _ _) (le_max_left _ _)

/-- Keys of a JS map set with a fresh key: the old keys plus the new
one. -/
theorem aset_keys {α : Type} (m : List (String × α)) (k : String) (v : α)
    (h : k ∉ m.map Prod.fst) :
    (aset m k v).map Prod.fst = m.map Prod.fst ++ [k] := by
  unfold aset
  have hany : m.any (fun p => p.1 == k) = false := by
    rw [List.any_eq_false]
    intro p hp
    simp only [beq_iff_eq]
    intro he
    exact h (he ▸ List.mem_map_of_mem Prod.fst hp)
  rw [if_neg (by simp [hany])]
  simp

/-- Membership in a JS map after a set. -/
theorem mem_aset {α : Type} (m : List (String × α)) (k : String) (v : α)
    (p : String × α) (hp : p ∈ aset m k v) : p ∈ m ∨ p = (k, v) := by
  unfold aset at hp
  by_cases hc : m.any (fun q => q.1 == k) = true
  · rw [if_pos hc] at hp
    obtain ⟨q, hq, he⟩ := List.mem_map.mp hp
    by_cases hqk : q.1 == k
    · rw [if_pos hqk] at he
      exact Or.inr he.symm
    · rw [if_neg hqk] at he
      exact Or.inl (he ▸ hq)
  · rw [if_neg hc] at hp
    rcases List.mem_append.mp hp with hp | hp
    · exact Or.inl hp
    · exact Or.inr (List.mem_singleton.mp hp)

/-- Folding the optimized step over distinct-hash commits appends the
commit hashes, in order, to the nodes map's key list. -/
theorem foldl_optStep_keys (cs : List String) (l : List CommitInfo) :
    ∀ (s : OptState), (l.map CommitInfo.hash).Nodup →
      (∀ c ∈ l, c.hash ∉ s.nodes.map Prod.fst) →
      (l.foldl (optStep cs) s).nodes.map Prod.fst
        = s.nodes.map Prod.fst ++ l.map CommitInfo.hash := by
  induction l with
  | nil => intro s _ _; simp
  | cons c l ih =>
    intro s hnd hdisj
    obtain ⟨node, hnodes, _, _⟩ := optStep_spec cs s c
    have hfresh : c.hash ∉ s.nodes.map Prod.fst := hdisj c (by simp)
    have hkeys : (optStep cs s c).nodes.map Prod.fst
        = s.nodes.map Prod.fst ++ [c.hash] := by
      rw [hnodes, aset_keys _ _ _ hfresh]
    rw [List.map_cons] at hnd
    obtain ⟨hhead, htail⟩ := List.nodup_cons.mp hnd
    simp only [List.foldl_cons]
    rw [ih (optStep cs s c) htail ?_]
    · rw [hkeys]
      simp
    · intro c2 hc2 hmem
      rw [hkeys] at hmem
      rcases List.mem_append.mp hmem with hmem | hmem
      · exact hdisj c2 (by simp [hc2]) hmem
      · exact hhead (List.mem_singleton.mp hmem ▸ List.mem_map_of_mem CommitInfo.hash hc2)

/-- Folding the optimized step preserves the invariant that every node's
rail index lies strictly below `maxRails`. -/
theorem foldl_optStep_railBound (cs : List String) (l : List CommitInfo) :
    ∀ (s : OptState), (∀ p ∈ s.nodes, (p.2.rail : Int) < s.maxRails) →
      ∀ p ∈ (l.foldl (optStep cs) s).nodes,
        (p.2.rail : Int) < (l.foldl (optStep cs) s).maxRails := by
  induction l with
  | nil => intro s h; simpa using h
  | cons c l ih =>
    intro s h
    simp only [List.foldl_cons]
    refine ih _ ?_
    obtain ⟨node, hnodes, hrail, hmono⟩ := optStep_spec cs s c
    intro p hp
    rw [hnodes] at hp
    rcases mem_aset _ _ _ _ hp with hm | he
    · exact lt_of_lt_of_le (h p hm) hmono
    · rw [he]
      exact hrail

/-- C10: for every commit list with pairwise-distinct hashes, the
optimized `calculateGraphLayout` produces a nodes map whose key list is
exactly the input hash list — one entry per input commit — and every
node's rail index is strictly below the returned `maxRails`. -/
theorem graphLayout_nodes_complete_and_rails_bounded (commits : List CommitInfo)
    (h : (commits.map CommitInfo.hash).Nodup) :
    (calculateGraphLayoutOpt commits).nodes.map Prod.fst
      = commits.map CommitInfo.hash
    ∧ ∀ p ∈ (calculateGraphLayoutOpt commits).nodes,
        (p.2.rail : Int) < (calculateGraphLayoutOpt commits).maxRails := by
  unfold calculateGraphLayoutOpt
  by_cases hc : commits.isEmpty
  · rw [if_pos hc]
    rw [List.isEmpty_iff] at hc
    subst hc
    exact ⟨rfl, by intro p hp; simp at hp⟩
  · rw [if_neg hc]
    constructor
    · have hk := foldl_optStep_keys (commits.map (fun c => c.hash)) commits
        ⟨[], 0, initRails⟩ h (by intro c _ hmem; simp at hmem)
      simpa using hk
    · exact foldl_optStep_railBound _ commits _ (by intro p hp; simp at hp)

/-- Witness for `graphLayout_nodes_complete_and_rails_bounded` on the
six-commit example history. -/
theorem graphLayout_nodes_complete_and_rails_bounded_witness :
    (exCommits.map CommitInfo.hash).Nodup
    ∧ (calculateGraphLayoutOpt exCommits).nodes.map Prod.fst
        = exCommits.map CommitInfo.hash :=
  ⟨by decide,
   (graphLayout_nodes_complete_and_rails_bounded exCommits (by decide)).1⟩

/-- Hashes of a linear chain input. -/
theorem chainCommits_map_hash (hs : List String) :
    (chainCommits hs).map CommitInfo.hash = hs := by
  induction hs with
  | nil => rfl
  | cons h t ih =>
    cases t with
    | nil => rfl
    | cons h2 t =>
      simp only [chainCommits, List.map_cons]
      rw [show (chainCommits (h2 :: t)).map CommitInfo.hash = h2 :: t from ih]
      rfl

/-- One optimized step on a mid-chain commit: the commit occupies rail 0,
clears it, and re-registers it for the parent; the free list gains a
(spurious, aliasing-induced) copy of index 0 and the active counter drops
by one, but `maxRails` stays 1. -/
theorem optStep_chain_step (cs : List String) (h h2 : String)
    (N : List (String × GraphNode)) (e : List Nat) (c : Int)
    (hmem : h2 ∈ cs) (hc : c ≤ 1) :
    optStep cs ⟨N, 1, ⟨[some (h, 0)], [(h, [0])], e, c, 1⟩⟩ (mkCI h [h2])
      = ⟨aset N h ⟨0, 0, [⟨0, 0, .straight, 0⟩], []⟩, 1,
         ⟨[some (h2, 0)], [(h2, [0])], e ++ [0], c - 1, 1⟩⟩ := by
  have hmax : max (1 : Int) (c - 1) = 1 := max_eq_left (by omega)
  simp [optStep, optParentPhase, clearRail, setRailExpecting, allocateRail,
    aset, adel, involvedRails, passThrough, mkCI, hmem, hmax, List.lookup,
    List.range_succ]

/-- One optimized step on the chain's root commit. -/
theorem optStep_chain_root (cs : List String) (h : String)
    (N : List (String × GraphNode)) (e : List Nat) (c : Int) (hc : c ≤ 1) :
    optStep cs ⟨N, 1, ⟨[some (h, 0)], [(h, [0])], e, c, 1⟩⟩ (mkCI h [])
      = ⟨aset N h ⟨0, 0, [], []⟩, 1,
         ⟨[none], [], e ++ [0] ++ [0], c - 1 - 1, 1⟩⟩ := by
  have hmax : max (1 : Int) (c - 1 - 1) = 1 := max_eq_left (by omega)
  simp [optStep, optParentPhase, clearRail, setRailExpecting, allocateRail,
    aset, adel, involvedRails, passThrough, mkCI, hmax, List.lookup,
    List.range_succ]

/-- The first optimized step on a fresh state: allocates rail 0. -/
theorem optStep_first (cs : List String) (h h2 : String)
    (hmem : h2 ∈ cs) :
    optStep cs ⟨[], 0, initRails⟩ (mkCI h [h2])
      = ⟨[(h, ⟨0, 0, [⟨0, 0, .straight, 0⟩], []⟩)], 1,
         ⟨[some (h2, 0)], [(h2, [0])], [], 1, 1⟩⟩ := by
  simp [optStep, optParentPhase, clearRail, setRailExpecting, allocateRail,
    aset, adel, involvedRails, passThrough, mkCI, initRails, hmem, List.lookup,
    List.range_succ]

/-- The first optimized step when the chain is a single root commit. -/
theorem optStep_first_root (cs : List String) (h : String) :
    optStep cs ⟨[], 0, initRails⟩ (mkCI h [])
      = ⟨[(h, ⟨0, 0, [], []⟩)], 1, ⟨[none], [], [0], 0, 1⟩⟩ := by
  simp [optStep, optParentPhase, clearRail, setRailExpecting, allocateRail,
    aset, adel, involvedRails, passThrough, mkCI, initRails, List.lookup,
    List.range_succ]

/-- One naive step on a mid-chain commit. -/
theorem naiveStep_chain_step (cs : List String) (h h2 : String)
    (N : List (String × GraphNode)) (hmem : h2 ∈ cs) :
    naiveStep cs ⟨N, [some (h, 0)], 1, 1⟩ (mkCI h [h2])
      = ⟨aset N h ⟨0, 0, [⟨0, 0, .straight, 0⟩], []⟩, [some (h2, 0)], 1, 1⟩ := by
  simp [naiveStep, naiveParentPhase, aset, involvedRails, passThrough, mkCI,
    hmem, List.range_succ]

/-- One naive step on the chain's root commit. -/
theorem naiveStep_chain_root (cs : List String) (h : String)
    (N : List (String × GraphNode)) :
    naiveStep cs ⟨N, [some (h, 0)], 1, 1⟩ (mkCI h [])
      = ⟨aset N h ⟨0, 0, [], []⟩, [none], 1, 1⟩ := by
  simp [naiveStep, naiveParentPhase, aset, involvedRails, passThrough, mkCI,
    List.range_succ]

/-- The first naive step on a fresh state. -/
theorem naiveStep_first (cs : List String) (h h2 : String)
    (hmem : h2 ∈ cs) :
    naiveStep cs ⟨[], [], 0, 0⟩ (mkCI h [h2])
      = ⟨[(h, ⟨0, 0, [⟨0, 0, .straight, 0⟩], []⟩)], [some (h2, 0)], 1, 1⟩ := by
  simp [naiveStep, naiveParentPhase, aset, involvedRails, passThrough, mkCI,
    hmem, List.range_succ]

/-- The first naive step when the chain is a single root commit. -/
theorem naiveStep_first_root (cs : List String) (h : String) :
    naiveStep cs ⟨[], [], 0, 0⟩ (mkCI h [])
      = ⟨[(h, ⟨0, 0, [], []⟩)], [none], 1, 1⟩ := by
  simp [naiveStep, naiveParentPhase, aset, involvedRails, passThrough, mkCI,
    List.range_succ]

/-- Running the two layout passes over the remainder of a linear chain
from matching mid-states produces the same nodes map and the same
`maxRails`, for any accumulated nodes `N`, free list `e` and counter
`c ≤ 1`. -/
theorem chainFold_eq (cs : List String) (rest : List String) :
    ∀ (h : String) (N : List (String × GraphNode)) (e : List Nat) (c : Int),
      c ≤ 1 → (∀ x ∈ rest, x ∈ cs) →
      (((chainCommits (h :: rest)).foldl (optStep cs)
          ⟨N, 1, ⟨[some (h, 0)], [(h, [0])], e, c, 1⟩⟩).nodes,
       ((chainCommits (h :: rest)).foldl (optStep cs)
          ⟨N, 1, ⟨[some (h, 0)], [(h, [0])], e, c, 1⟩⟩).maxRails)
      = (((chainCommits (h :: rest)).foldl (naiveStep cs)
            ⟨N, [some (h, 0)], 1, 1⟩).nodes,
         ((chainCommits (h :: rest)).foldl (naiveStep cs)
            ⟨N, [some (h, 0)], 1, 1⟩).maxRails) := by
  induction rest with
  | nil =>
    intro h N e c hc _
    simp only [chainCommits, List.foldl_cons, List.foldl_nil]
    rw [optStep_chain_root cs h N e c hc, naiveStep_chain_root cs h N]
  | cons h2 rest ih =>
    intro h N e c hc hsub
    simp only [chainCommits, List.foldl_cons]
    rw [optStep_chain_step cs h h2 N e c (hsub h2 (by simp)) hc,
        naiveStep_chain_step cs h h2 N (hsub h2 (by simp))]
    exact ih h2 _ _ _ (by omega) (fun x hx => hsub x (by simp [hx]))

/-- C8, amended: the optimized and naive `calculateGraphLayout` need not
agree in general (see the counterexample) because a freed rail is reused
most-recently-first by the optimized version and lowest-index-first by the
naive one; on every linear first-parent chain, however — each commit's
sole parent being the next commit in the list, the last being a root — the
two versions return identical layouts. -/
theorem graphLayout_opt_eq_naive_on_chains (hs : List String) :
    calculateGraphLayoutOpt (chainCommits hs)
      = calculateGraphLayoutNaive (chainCommits hs) := by
  match hs with
  | [] => rfl
  | [h] =>
    show calculateGraphLayoutOpt [mkCI h []] = calculateGraphLayoutNaive [mkCI h []]
    unfold calculateGraphLayoutOpt calculateGraphLayoutNaive
    rw [if_neg (by simp), if_neg (by simp)]
    simp only [List.foldl_cons, List.foldl_nil]
    rw [optStep_first_root _ h, naiveStep_first_root _ h]
  | h :: h2 :: t =>
    have hcs : (chainCommits (h :: h2 :: t)).map (fun cI => cI.hash)
        = h :: h2 :: t := chainCommits_map_hash _
    have hmem : ∀ x ∈ h2 :: t,
        x ∈ (chainCommits (h :: h2 :: t)).map (fun cI => cI.hash) := by
      intro x hx
      rw [hcs]
      simp [hx]
    show calculateGraphLayoutOpt (mkCI h [h2] :: chainCommits (h2 :: t))
        = calculateGraphLayoutNaive (mkCI h [h2] :: chainCommits (h2 :: t))
    unfold calculateGraphLayoutOpt calculateGraphLayoutNaive
    rw [if_neg (by simp), if_neg (by simp)]
    simp only [List.foldl_cons]
    have hcseq : (mkCI h [h2] :: chainCommits (h2 :: t)).map (fun cI => cI.hash)
        = (chainCommits (h :: h2 :: t)).map (fun cI => cI.hash) := rfl
    rw [hcseq]
    rw [optStep_first _ h h2 (hmem h2 (by simp)),
        naiveStep_first _ h h2 (hmem h2 (by simp))]
    have hfold := chainFold_eq ((chainCommits (h :: h2 :: t)).map (fun cI => cI.hash))
      t h2 [(h, ⟨0, 0, [⟨0, 0, .straight, 0⟩], []⟩)] [] 1 (by omega)
      (fun x hx => hmem x (by simp [hx]))
    have h1 := congrArg Prod.fst hfold
    have h2m := congrArg Prod.snd hfold
    simp only at h1 h2m
    rw [GraphLayout.mk.injEq]
    exact ⟨h1, h2m⟩

end GitRewrite
